import Mathlib

/-!
Verification of the core logic of `dice_simulator.py`: a die with a
configurable number of sides, repeated rolling, summary statistics
(min / max / mean / mode), the per-face frequency table, the roll
preview, and — modelled from the specification where the second
script variant is not present in the sources — frequency-table
persistence and the chi-squared bias test.

Python `int` values are embedded as `Int`, real-valued means and
percentages as `ℚ`, and fallible operations (construction with an
invalid side count, statistics of an empty sequence) as `Except` /
`Option`. The random source of `random.randint` is embedded as an
explicit stream `g : Nat → Nat` of raw draws; `randint a b` maps a raw
draw into the inclusive range `[a, b]`, which is the documented
contract of the Python function.
-/

namespace DiceSimulator

/-- Embedding of `random.randint(a, b)`: maps one raw draw `r` of the
random stream into the inclusive range `[a, b]`. -/
def randint (a b : Int) (r : Nat) : Int :=
  a + ((r % (b - a + 1).toNat : Nat) : Int)

/-- The `Die` class: `sides` and the mutable `roll_history`. -/
structure Die where
  sides : Int
  roll_history : List Int
deriving DecidableEq, Repr

/-- `Die.__init__`: rejects `sides < 1` with a `ValueError`, otherwise
stores `sides` and starts with an empty `roll_history`. -/
def Die.init (sides : Int) : Except String Die :=
  if sides < 1 then Except.error "Die must have at least 1 side"
  else Except.ok { sides := sides, roll_history := [] }

/-- `Die.roll`: draws `randint(1, self.sides)`, appends the result to
`roll_history` and returns it.  State passing makes the mutation of the
die explicit. -/
def Die.roll (d : Die) (r : Nat) : Int × Die :=
  let result := randint 1 d.sides r
  (result, { d with roll_history := d.roll_history ++ [result] })

/-- `roll_multiple_dice(die, num_rolls)`: the list comprehension
`[die.roll() for _ in range(num_rolls)]`, threading the die state and
the random stream. -/
def roll_multiple_dice (d : Die) (num_rolls : Nat) (g : Nat → Nat) :
    List Int × Die :=
  match num_rolls with
  | 0 => ([], d)
  | Nat.succ m =>
    let p := d.roll (g 0)
    let rest := roll_multiple_dice p.2 m (fun i => g (i + 1))
    (p.1 :: rest.1, rest.2)

lemma randint_bounds (s : Int) (r : Nat) (hs : 1 ≤ s) :
    1 ≤ randint 1 s r ∧ randint 1 s r ≤ s := by
  have hss : ((1 : Int) - 1 + 1) = 1 := by ring
  have h1 : (s - 1 + 1) = s := by ring
  have hpos : 0 < s.toNat := by omega
  have hm : r % s.toNat < s.toNat := Nat.mod_lt r hpos
  unfold randint
  rw [h1]
  omega

/-- Joint specification of `roll_multiple_dice`: the result list has
length `num_rolls`; the die keeps its side count; the history grows by
exactly the returned results, in order; and every result lies in
`[1, sides]` when `sides ≥ 1`. -/
lemma roll_multiple_spec (n : Nat) : ∀ (d : Die) (g : Nat → Nat),
    (roll_multiple_dice d n g).1.length = n ∧
    (roll_multiple_dice d n g).2.sides = d.sides ∧
    (roll_multiple_dice d n g).2.roll_history =
      d.roll_history ++ (roll_multiple_dice d n g).1 ∧
    (1 ≤ d.sides → ∀ v ∈ (roll_multiple_dice d n g).1,
      1 ≤ v ∧ v ≤ d.sides) := by
  induction n with
  | zero =>
    intro d g
    simp [roll_multiple_dice]
  | succ m ih =>
    intro d g
    have hroll : (d.roll (g 0)).2.sides = d.sides := rfl
    have hhist : (d.roll (g 0)).2.roll_history =
        d.roll_history ++ [(d.roll (g 0)).1] := rfl
    obtain ⟨ihlen, ihsides, ihhist, ihrange⟩ :=
      ih (d.roll (g 0)).2 (fun i => g (i + 1))
    refine ⟨?_, ?_, ?_, ?_⟩
    · simp [roll_multiple_dice, ihlen]
    · simp only [roll_multiple_dice]
      rw [ihsides, hroll]
    · simp only [roll_multiple_dice]
      rw [ihhist, hhist]
      simp
    · intro hs v hv
      simp only [roll_multiple_dice, List.mem_cons] at hv
      rcases hv with hv | hv
      · subst hv
        exact randint_bounds d.sides (g 0) hs
      · have hs2 : 1 ≤ (d.roll (g 0)).2.sides := by rw [hroll]; exact hs
        have := ihrange hs2 v hv
        rw [hroll] at this
        exact this

/-- C1: for every die with `sides ≥ 1` and every `n ≥ 1`, rolling the
die `n` times returns an ordered sequence of exactly `n` integers, each
in the inclusive range `[1, sides]`. -/
theorem roll_multiple_dice_length_range (d : Die) (n : Nat) (g : Nat → Nat)
    (hs : 1 ≤ d.sides) (hn : 1 ≤ n) :
    (roll_multiple_dice d n g).1.length = n ∧
    ∀ v ∈ (roll_multiple_dice d n g).1, 1 ≤ v ∧ v ≤ d.sides := by
  obtain ⟨hlen, _, _, hrange⟩ := roll_multiple_spec n d g
  exact ⟨hlen, hrange hs⟩

theorem roll_multiple_dice_length_range_witness :
    (1 : Int) ≤ (Die.mk 6 []).sides ∧ (1 : Nat) ≤ 3 ∧
    ((roll_multiple_dice (Die.mk 6 []) 3 (fun i => i)).1.length = 3 ∧
     ∀ v ∈ (roll_multiple_dice (Die.mk 6 []) 3 (fun i => i)).1,
       1 ≤ v ∧ v ≤ (Die.mk 6 []).sides) :=
  ⟨by decide, by decide,
   roll_multiple_dice_length_range (Die.mk 6 []) 3 (fun i => i)
     (by decide) (by decide)⟩

/-- C2: constructing a `Die` with `sides < 1` fails with a
`ValueError` (the InvalidConfiguration error), and for every
`sides ≥ 1` the construction succeeds, storing `sides` and an empty
roll history. -/
theorem die_init_validation (s : Int) :
    (s < 1 → ∃ msg, Die.init s = Except.error msg) ∧
    (1 ≤ s → Die.init s = Except.ok (Die.mk s [])) := by
  constructor
  · intro h
    exact ⟨"Die must have at least 1 side", by simp [Die.init, h]⟩
  · intro h
    simp [Die.init]
    omega

theorem die_init_validation_witness :
    ((0 : Int) < 1 ∧ ∃ msg, Die.init 0 = Except.error msg) ∧
    ((1 : Int) ≤ 6 ∧ Die.init 6 = Except.ok (Die.mk 6 [])) :=
  ⟨⟨by decide, (die_init_validation 0).1 (by decide)⟩,
   ⟨by decide, (die_init_validation 6).2 (by decide)⟩⟩

/-- C10: `Die.roll` mutates only the roll history — each call appends
exactly its returned value and leaves `sides` unchanged — so for every
`n ≥ 1`, after `roll_multiple_dice` on a freshly constructed die the
history equals the returned roll sequence, in order and of length
`n`. -/
theorem roll_history_frame (d : Die) (n : Nat) (g : Nat → Nat)
    (hfresh : d.roll_history = []) (hn : 1 ≤ n) :
    (∀ (e : Die) (r : Nat),
      (e.roll r).2.roll_history = e.roll_history ++ [(e.roll r).1] ∧
      (e.roll r).2.sides = e.sides) ∧
    (roll_multiple_dice d n g).2.sides = d.sides ∧
    (roll_multiple_dice d n g).2.roll_history =
      (roll_multiple_dice d n g).1 ∧
    (roll_multiple_dice d n g).1.length = n := by
  obtain ⟨hlen, hsides, hhist, _⟩ := roll_multiple_spec n d g
  refine ⟨fun e r => ⟨rfl, rfl⟩, hsides, ?_, hlen⟩
  rw [hhist, hfresh]
  simp

theorem roll_history_frame_witness :
    (Die.mk 6 []).roll_history = [] ∧ (1 : Nat) ≤ 2 ∧
    ((∀ (e : Die) (r : Nat),
       (e.roll r).2.roll_history = e.roll_history ++ [(e.roll r).1] ∧
       (e.roll r).2.sides = e.sides) ∧
     (roll_multiple_dice (Die.mk 6 []) 2 (fun i => i)).2.sides =
       (Die.mk 6 []).sides ∧
     (roll_multiple_dice (Die.mk 6 []) 2 (fun i => i)).2.roll_history =
       (roll_multiple_dice (Die.mk 6 []) 2 (fun i => i)).1 ∧
     (roll_multiple_dice (Die.mk 6 []) 2 (fun i => i)).1.length = 2) :=
  ⟨rfl, by decide,
   roll_history_frame (Die.mk 6 []) 2 (fun i => i) rfl (by decide)⟩

/-- Keys of `collections.Counter(results)` in insertion order: the
distinct values of the list, each at its first occurrence. -/
def counterKeys : List Int → List Int
  | [] => []
  | x :: xs => x :: counterKeys (xs.filter fun y => y ≠ x)
termination_by l => l.length
decreasing_by
  simp only [List.length_cons]
  exact Nat.lt_succ_of_le (List.length_filter_le _ _)

/-- One step of selecting the most common value: keep the earlier key
unless a later key has a strictly greater count. -/
def pickMax (l : List Int) (best v : Int) : Int :=
  if l.count v > l.count best then v else best

/-- `Counter(results).most_common(1)[0][0]`: the first key in counter
insertion order whose count is maximal (CPython `most_common(1)` takes
the `max` of the insertion-ordered items by count, which on ties keeps
the first). -/
def most_common1 (l : List Int) : Option Int :=
  match counterKeys l with
  | [] => none
  | k :: ks => some (ks.foldl (pickMax l) k)

/-- The summary statistics record produced by `generate_stats`. -/
structure Stats where
  min : Int
  max : Int
  mean : ℚ
  mode : Int
  total : Nat
deriving DecidableEq, Repr

/-- `generate_stats(results)`: min, max, mean (`sum / len`, exact),
mode (`Counter(results).most_common(1)[0][0]`) and total.  On an empty
list the Python code raises (`min` of an empty sequence), embedded as
`none`. -/
def generate_stats : List Int → Option Stats
  | [] => none
  | x :: xs =>
    some { min := xs.foldl min x
           max := xs.foldl max x
           mean := (((x :: xs).sum : Int) : ℚ) / ((x :: xs).length : ℚ)
           mode := (most_common1 (x :: xs)).getD x
           total := (x :: xs).length }

/-- C3: for a roll sequence of length 1 with single value `v`,
`generate_stats` yields min = max = mean = mode = `v` and total 1. -/
theorem generate_stats_singleton (v : Int) :
    generate_stats [v] = some (Stats.mk v v (v : ℚ) v 1) := by
  simp [generate_stats, most_common1, counterKeys]

lemma find?_filter_ne (p : Int → Bool) (x : Int) (hx : p x = false)
    (xs : List Int) :
    (xs.filter fun y => y ≠ x).find? p = xs.find? p := by
  induction xs with
  | nil => rfl
  | cons y ys ih =>
    by_cases hyx : y = x
    · subst hyx
      rw [List.filter_cons_of_neg (by simp),
        List.find?_cons_of_neg _ (by simp [hx]), ih]
    · rw [List.filter_cons_of_pos (by simp [hyx])]
      cases hp : p y with
      | true =>
        rw [List.find?_cons_of_pos _ hp, List.find?_cons_of_pos _ hp]
      | false =>
        rw [List.find?_cons_of_neg _ (by simp [hp]),
          List.find?_cons_of_neg _ (by simp [hp]), ih]

lemma counterKeys_mem (v : Int) (l : List Int) :
    v ∈ counterKeys l ↔ v ∈ l := by
  induction l using counterKeys.induct with
  | case1 => simp [counterKeys]
  | case2 x xs ih =>
    rw [counterKeys]
    simp only [List.mem_cons, ih, List.mem_filter, decide_eq_true_eq]
    constructor
    · rintro (h | ⟨h1, _⟩)
      · exact Or.inl h
      · exact Or.inr h1
    · rintro (h | h)
      · exact Or.inl h
      · by_cases hvx : v = x
        · exact Or.inl hvx
        · exact Or.inr ⟨h, hvx⟩

lemma counterKeys_find? (p : Int → Bool) (l : List Int) :
    (counterKeys l).find? p = l.find? p := by
  induction l using counterKeys.induct with
  | case1 => rw [counterKeys]
  | case2 x xs ih =>
    rw [counterKeys]
    cases hp : p x with
    | true =>
      rw [List.find?_cons_of_pos _ hp, List.find?_cons_of_pos _ hp]
    | false =>
      rw [List.find?_cons_of_neg _ (by simp [hp]),
        List.find?_cons_of_neg _ (by simp [hp]), ih,
        find?_filter_ne p x hp xs]

lemma foldl_pickMax (l : List Int) (ks : List Int) : ∀ (b : Int),
    (∀ v ∈ b :: ks, l.count v ≤ l.count (ks.foldl (pickMax l) b)) ∧
    (b :: ks).find?
        (fun v => l.count v = l.count (ks.foldl (pickMax l) b)) =
      some (ks.foldl (pickMax l) b) := by
  induction ks with
  | nil =>
    intro b
    refine ⟨?_, ?_⟩
    · intro v hv
      simp only [List.mem_singleton] at hv
      subst hv
      exact le_refl _
    · simp [List.find?]
  | cons w ks ih =>
    intro b
    rw [List.foldl_cons]
    by_cases hgt : l.count w > l.count b
    · have hpm : pickMax l b w = w := by simp [pickMax, hgt]
      rw [hpm]
      obtain ⟨ihb, ihf⟩ := ih w
      have hwr : l.count w ≤ l.count (ks.foldl (pickMax l) w) :=
        ihb w (by simp)
      have hbr : l.count b < l.count (ks.foldl (pickMax l) w) :=
        lt_of_lt_of_le hgt hwr
      refine ⟨?_, ?_⟩
      · intro v hv
        rcases List.mem_cons.mp hv with hv | hv
        · subst hv
          exact le_of_lt hbr
        · exact ihb v hv
      · rw [List.find?_cons_of_neg _ (by simp [Nat.ne_of_lt hbr])]
        exact ihf
    · have hpm : pickMax l b w = b := by simp [pickMax, hgt]
      rw [hpm]
      obtain ⟨ihb, ihf⟩ := ih b
      have hwb : l.count w ≤ l.count b := Nat.le_of_not_lt hgt
      have hbr : l.count b ≤ l.count (ks.foldl (pickMax l) b) :=
        ihb b (by simp)
      refine ⟨?_, ?_⟩
      · intro v hv
        rcases List.mem_cons.mp hv with hv | hv
        · subst hv
          exact hbr
        · rcases List.mem_cons.mp hv with hv | hv
          · subst hv
            exact le_trans hwb hbr
          · exact ihb v (by simp [hv])
      · by_cases heq : l.count b = l.count (ks.foldl (pickMax l) b)
        · rw [List.find?_cons_of_pos _ (by simp [heq])]
          rw [List.find?_cons_of_pos _ (by simp [heq])] at ihf
          exact ihf
        · have hbr2 : l.count b < l.count (ks.foldl (pickMax l) b) :=
            lt_of_le_of_ne hbr heq
          have hwr : l.count w < l.count (ks.foldl (pickMax l) b) :=
            lt_of_le_of_lt hwb hbr2
          rw [List.find?_cons_of_neg _ (by simp [heq]),
            List.find?_cons_of_neg _ (by simp [Nat.ne_of_lt hwr])]
          rw [List.find?_cons_of_neg _ (by simp [heq])] at ihf
          exact ihf

/-- C4: for every non-empty roll sequence in which two or more distinct
values are tied for the maximum occurrence count, the mode reported by
`generate_stats` is the first value encountered in the sequence among
those achieving the maximum count: it has maximal count, and scanning
the sequence in order, the first element of maximal count is the mode
itself. -/
theorem mode_first_max_tie (l : List Int) (hne : l ≠ [])
    (htie : ∃ a b, a ∈ l ∧ b ∈ l ∧ a ≠ b ∧ l.count a = l.count b ∧
      ∀ v ∈ l, l.count v ≤ l.count a) :
    ∃ stats, generate_stats l = some stats ∧
      (∀ v ∈ l, l.count v ≤ l.count stats.mode) ∧
      l.find? (fun v => l.count v = l.count stats.mode) =
        some stats.mode := by
  match l with
  | [] => exact absurd rfl hne
  | x :: xs =>
    have hck : counterKeys (x :: xs) =
        x :: counterKeys (xs.filter fun y => y ≠ x) := by
      rw [counterKeys]
    have hmc : most_common1 (x :: xs) =
        some ((counterKeys (xs.filter fun y => y ≠ x)).foldl
          (pickMax (x :: xs)) x) := by
      rw [most_common1, hck]
    obtain ⟨hbound, hfind⟩ :=
      foldl_pickMax (x :: xs) (counterKeys (xs.filter fun y => y ≠ x)) x
    have hgs : generate_stats (x :: xs) =
        some (Stats.mk (xs.foldl min x) (xs.foldl max x)
          ((((x :: xs).sum : Int) : ℚ) / ((x :: xs).length : ℚ))
          ((counterKeys (xs.filter fun y => y ≠ x)).foldl
            (pickMax (x :: xs)) x)
          ((x :: xs).length)) := by
      simp [generate_stats, hmc]
    refine ⟨_, hgs, ?_, ?_⟩
    · intro v hv
      have hvk : v ∈ x :: counterKeys (xs.filter fun y => y ≠ x) := by
        rw [← hck]
        exact (counterKeys_mem v (x :: xs)).mpr hv
      exact hbound v hvk
    · show (x :: xs).find?
          (fun v => (x :: xs).count v =
            (x :: xs).count ((counterKeys (xs.filter fun y => y ≠ x)).foldl
              (pickMax (x :: xs)) x)) =
        some ((counterKeys (xs.filter fun y => y ≠ x)).foldl
          (pickMax (x :: xs)) x)
      rw [← counterKeys_find?, hck]
      exact hfind

theorem mode_first_max_tie_witness :
    ([2, 3, 2, 3] : List Int) ≠ [] ∧
    (∃ a b, a ∈ ([2, 3, 2, 3] : List Int) ∧ b ∈ ([2, 3, 2, 3] : List Int) ∧
      a ≠ b ∧ ([2, 3, 2, 3] : List Int).count a =
        ([2, 3, 2, 3] : List Int).count b ∧
      ∀ v ∈ ([2, 3, 2, 3] : List Int),
        ([2, 3, 2, 3] : List Int).count v ≤
          ([2, 3, 2, 3] : List Int).count a) ∧
    (∃ stats, generate_stats [2, 3, 2, 3] = some stats ∧
      (∀ v ∈ ([2, 3, 2, 3] : List Int),
        ([2, 3, 2, 3] : List Int).count v ≤
          ([2, 3, 2, 3] : List Int).count stats.mode) ∧
      ([2, 3, 2, 3] : List Int).find?
          (fun v => ([2, 3, 2, 3] : List Int).count v =
            ([2, 3, 2, 3] : List Int).count stats.mode) =
        some stats.mode) :=
  ⟨by decide, ⟨2, 3, by decide, by decide, by decide, by decide, by decide⟩,
   mode_first_max_tie [2, 3, 2, 3] (by decide)
     ⟨2, 3, by decide, by decide, by decide, by decide, by decide⟩⟩

/-- The frequency table built by the `display_results` loop
`for value in range(1, die_size + 1): count = counter.get(value, 0)`:
one `(face, count)` entry per face `1 .. die_size`, in ascending face
order, with count 0 for faces never rolled. -/
def frequency_table (results : List Int) (die_size : Nat) :
    List (Int × Nat) :=
  (List.range die_size).map
    (fun (i : Nat) => ((i : Int) + 1, results.count ((i : Int) + 1)))

lemma listmap_sum_range (n : Nat) (f : Nat → Nat) :
    ((List.range n).map f).sum = ∑ i in Finset.range n, f i := by
  induction n with
  | zero => simp
  | succ m ih =>
    rw [List.range_succ, List.map_append, List.sum_append,
      Finset.sum_range_succ, ih]
    simp

lemma count_sum_eq_length (l : List Int) (sides : Nat)
    (hall : ∀ v ∈ l, 1 ≤ v ∧ v ≤ (sides : Int)) :
    ((List.range sides).map (fun (i : Nat) => l.count ((i : Int) + 1))).sum =
      l.length := by
  rw [listmap_sum_range]
  have hinj : ∀ x ∈ Finset.range sides, ∀ y ∈ Finset.range sides,
      ((x : Int) + 1 = (y : Int) + 1) → x = y := by
    intro a _ b _ h
    exact_mod_cast add_right_cancel h
  have himg : ∑ v in (Finset.range sides).image
        (fun i : Nat => (i : Int) + 1), l.count v =
      ∑ i in Finset.range sides, l.count ((i : Int) + 1) :=
    Finset.sum_image hinj
  rw [← himg]
  have hsub : l.toFinset ⊆
      (Finset.range sides).image (fun i : Nat => (i : Int) + 1) := by
    intro v hv
    have hvl : v ∈ l := List.mem_toFinset.mp hv
    obtain ⟨h1, h2⟩ := hall v hvl
    rw [Finset.mem_image]
    refine ⟨(v - 1).toNat, Finset.mem_range.mpr (by omega), by omega⟩
  have hzero : ∀ v ∈ (Finset.range sides).image
      (fun i : Nat => (i : Int) + 1), v ∉ l.toFinset → l.count v = 0 := by
    intro v _ hv
    exact List.count_eq_zero.mpr (fun hm => hv (List.mem_toFinset.mpr hm))
  rw [← Finset.sum_subset hsub hzero]
  simp

/-- C5: over a die with `sides` faces, the frequency table of a
non-empty roll sequence whose values lie in `[1, sides]` has exactly
one entry per face `1 .. sides` in order, count 0 for faces never
rolled, and its counts sum to the length of the sequence. -/
theorem frequency_table_spec (l : List Int) (sides : Nat) (hne : l ≠ [])
    (hall : ∀ v ∈ l, 1 ≤ v ∧ v ≤ (sides : Int)) :
    (frequency_table l sides).length = sides ∧
    (frequency_table l sides).map Prod.fst =
      (List.range sides).map (fun (i : Nat) => (i : Int) + 1) ∧
    (∀ p ∈ frequency_table l sides, p.1 ∉ l → p.2 = 0) ∧
    ((frequency_table l sides).map Prod.snd).sum = l.length := by
  refine ⟨?_, ?_, ?_, ?_⟩
  · rw [frequency_table, List.length_map, List.length_range]
  · rw [frequency_table, List.map_map]
    rfl
  · intro p hp hnotin
    simp only [frequency_table, List.mem_map, List.mem_range] at hp
    obtain ⟨i, _, hpi⟩ := hp
    subst hpi
    exact List.count_eq_zero.mpr hnotin
  · have hmap : (frequency_table l sides).map Prod.snd =
        (List.range sides).map (fun (i : Nat) => l.count ((i : Int) + 1)) := by
      rw [frequency_table, List.map_map]
      rfl
    rw [hmap]
    exact count_sum_eq_length l sides hall

theorem frequency_table_spec_witness :
    ([1, 3, 3, 2] : List Int) ≠ [] ∧
    (∀ v ∈ ([1, 3, 3, 2] : List Int), 1 ≤ v ∧ v ≤ ((4 : Nat) : Int)) ∧
    ((frequency_table [1, 3, 3, 2] 4).length = 4 ∧
     (frequency_table [1, 3, 3, 2] 4).map Prod.fst =
       (List.range 4).map (fun (i : Nat) => (i : Int) + 1) ∧
     (∀ p ∈ frequency_table [1, 3, 3, 2] 4,
       p.1 ∉ ([1, 3, 3, 2] : List Int) → p.2 = 0) ∧
     ((frequency_table [1, 3, 3, 2] 4).map Prod.snd).sum =
       ([1, 3, 3, 2] : List Int).length) :=
  ⟨by decide, by decide,
   frequency_table_spec [1, 3, 3, 2] 4 (by decide) (by decide)⟩

/-- A token of the rendered roll preview: either a roll value or the
ellipsis marker `"..."`. -/
inductive Token where
  | val (v : Int)
  | ellipsis
deriving DecidableEq, Repr

/-- The preview built by `display_results`:
`results[:5] + ["..."] + results[-5:]` when more than 10 rolls,
otherwise the full list. -/
def preview (results : List Int) : List Token :=
  if results.length > 10 then
    (results.take 5).map Token.val ++ [Token.ellipsis] ++
      (results.drop (results.length - 5)).map Token.val
  else
    results.map Token.val

/-- C6: for a sequence longer than 10 the preview is the first 5
values, an ellipsis marker, then the last 5 values — 11 displayed
tokens in total; for a sequence of length at most 10 the preview is
the full sequence in order. -/
theorem preview_spec (l : List Int) :
    (l.length > 10 →
      preview l = (l.take 5).map Token.val ++ [Token.ellipsis] ++
        (l.drop (l.length - 5)).map Token.val ∧
      (l.take 5).length = 5 ∧ (l.drop (l.length - 5)).length = 5 ∧
      (preview l).length = 11) ∧
    (l.length ≤ 10 → preview l = l.map Token.val) := by
  constructor
  · intro h
    have hp : preview l = (l.take 5).map Token.val ++ [Token.ellipsis] ++
        (l.drop (l.length - 5)).map Token.val := by
      rw [preview, if_pos h]
    have htake : (l.take 5).length = 5 := by
      rw [List.length_take]
      omega
    have hdrop : (l.drop (l.length - 5)).length = 5 := by
      rw [List.length_drop]
      omega
    refine ⟨hp, htake, hdrop, ?_⟩
    rw [hp]
    simp only [List.length_append, List.length_map, htake, hdrop,
      List.length_singleton]
  · intro h
    rw [preview, if_neg (by omega)]

theorem preview_spec_witness :
    (([1, 2, 3, 4, 5, 6, 7, 8, 9, 10, 11, 12] : List Int).length > 10 ∧
      (preview [1, 2, 3, 4, 5, 6, 7, 8, 9, 10, 11, 12] =
        (([1, 2, 3, 4, 5, 6, 7, 8, 9, 10, 11, 12] : List Int).take 5).map
            Token.val ++ [Token.ellipsis] ++
          (([1, 2, 3, 4, 5, 6, 7, 8, 9, 10, 11, 12] : List Int).drop
            (([1, 2, 3, 4, 5, 6, 7, 8, 9, 10, 11, 12] : List Int).length -
              5)).map Token.val ∧
        (([1, 2, 3, 4, 5, 6, 7, 8, 9, 10, 11, 12] : List Int).take
          5).length = 5 ∧
        (([1, 2, 3, 4, 5, 6, 7, 8, 9, 10, 11, 12] : List Int).drop
          (([1, 2, 3, 4, 5, 6, 7, 8, 9, 10, 11, 12] : List Int).length -
            5)).length = 5 ∧
        (preview [1, 2, 3, 4, 5, 6, 7, 8, 9, 10, 11, 12]).length = 11)) ∧
    (([1, 2, 3] : List Int).length ≤ 10 ∧
      preview [1, 2, 3] = ([1, 2, 3] : List Int).map Token.val) :=
  ⟨⟨by decide,
    (preview_spec [1, 2, 3, 4, 5, 6, 7, 8, 9, 10, 11, 12]).1 (by decide)⟩,
   ⟨by decide, (preview_spec [1, 2, 3]).2 (by decide)⟩⟩

/-- The per-face frequency/percentage rows of `display_results`:
`percent = (count / len(results)) * 100` for each face.  A zero
denominator (`len(results) = 0`, a `ZeroDivisionError` in Python) is
embedded as `none`. -/
def frequency_percent (results : List Int) (die_size : Nat) :
    Option (List (Int × Nat × ℚ)) :=
  if results.length = 0 then none
  else
    some ((List.range die_size).map (fun (i : Nat) =>
      ((i : Int) + 1, results.count ((i : Int) + 1),
        ((results.count ((i : Int) + 1) : ℚ) / (results.length : ℚ)) *
          100)))

/-- C7: for every roll sequence of length at least 1, the core
statistical computations raise no error and never divide by zero —
the denominator (the total roll count) is positive, `generate_stats`
succeeds, and the per-face frequency/percentage table succeeds. -/
theorem stats_no_division_by_zero (l : List Int) (sides : Nat)
    (h : 1 ≤ l.length) :
    (0 : ℚ) < (l.length : ℚ) ∧
    (generate_stats l).isSome ∧
    (frequency_percent l sides).isSome := by
  refine ⟨?_, ?_, ?_⟩
  · exact_mod_cast h
  · match l, h with
    | x :: xs, _ => rfl
  · rw [frequency_percent, if_neg (by omega)]
    rfl

theorem stats_no_division_by_zero_witness :
    1 ≤ ([4] : List Int).length ∧
    ((0 : ℚ) < (([4] : List Int).length : ℚ) ∧
     (generate_stats [4]).isSome ∧
     (frequency_percent [4] 6).isSome) :=
  ⟨by decide, stats_no_division_by_zero [4] 6 (by decide)⟩

/-- A cell of the persisted CSV file: a text cell (header fields) or a
numeric cell written in decimal, embedded as a sign and the decimal
digits of the magnitude. -/
inductive Cell where
  | text (s : String)
  | num (neg : Bool) (digits : List Nat)
deriving DecidableEq, Repr

/-- Decimal rendering of an integer into a numeric cell. -/
def encodeInt (n : Int) : Cell :=
  Cell.num (decide (n < 0)) (Nat.digits 10 n.natAbs)

/-- Parsing an integer back from a cell. -/
def decodeInt : Cell → Option Int
  | Cell.text _ => none
  | Cell.num neg ds =>
    some (if neg then -((Nat.ofDigits 10 ds : Nat) : Int)
          else ((Nat.ofDigits 10 ds : Nat) : Int))

/-- Parsing a non-negative count back from a cell. -/
def decodeNat : Cell → Option Nat
  | Cell.num false ds => some (Nat.ofDigits 10 ds)
  | _ => none

/-- Modelled from the spec: the second script variant's persistence
adapter is absent from the sources; per the specification, `save`
writes a header row `Face,Frequency` and then one `face, frequency`
row per entry, in the stored order. -/
def save_frequency_table (table : List (Int × Nat)) : List (List Cell) :=
  [Cell.text "Face", Cell.text "Frequency"] ::
    table.map (fun p => [encodeInt p.1, Cell.num false (Nat.digits 10 p.2)])

/-- Parsing of one stored `face, frequency` row. -/
def parseRow : List Cell → Option (Int × Nat)
  | [c1, c2] => do
    let f ← decodeInt c1
    let q ← decodeNat c2
    pure (f, q)
  | _ => none

/-- Modelled from the spec: `load` skips the header row and parses one
row per face in the order stored; a file with no header or a malformed
row yields `none` (the file-not-found signal is I/O, outside the
model). -/
def load_frequency_table (rows : List (List Cell)) :
    Option (List (Int × Nat)) :=
  match rows with
  | [] => none
  | _ :: data => data.mapM parseRow

lemma decodeInt_encodeInt (n : Int) : decodeInt (encodeInt n) = some n := by
  simp only [encodeInt, decodeInt, Nat.ofDigits_digits, Option.some.injEq]
  by_cases h : n < 0
  · rw [if_pos (by simpa using h)]
    omega
  · rw [if_neg (by simpa using h)]
    omega

lemma parseRow_row (p : Int × Nat) :
    parseRow [encodeInt p.1, Cell.num false (Nat.digits 10 p.2)] =
      some p := by
  rw [parseRow, decodeInt_encodeInt]
  show (do
    let q ← decodeNat (Cell.num false (Nat.digits 10 p.2))
    pure (p.1, q) : Option (Int × Nat)) = some p
  rw [decodeNat, Nat.ofDigits_digits]
  rfl

/-- C8: saving a frequency table with the persistence adapter and
loading it back reproduces the original table exactly — the same
counts, in the same face order. -/
theorem load_save_roundtrip (table : List (Int × Nat)) :
    load_frequency_table (save_frequency_table table) = some table := by
  rw [save_frequency_table, load_frequency_table]
  induction table with
  | nil => rfl
  | cons p t ih =>
    rw [List.map_cons, List.mapM_cons, parseRow_row, ih]
    rfl

/-- Modelled from the spec: the chi-squared critical value, a fixed
constant calibrated for 6 faces at significance level 0.05. -/
def critical_value : ℚ := 12592 / 1000

/-- Modelled from the spec: `chi_squared(frequency_table, total_rolls,
sides)` is absent from the sources; per the specification, the
expected frequency per face is `total_rolls / sides` (real-valued),
the statistic is the sum over faces of
`(observed - expected)^2 / expected`, and `is_biased` is
`statistic > critical_value`. -/
def chi_squared (frequency_table : List (Int × Nat))
    (total_rolls sides : Nat) : ℚ × Bool :=
  let expected : ℚ := (total_rolls : ℚ) / (sides : ℚ)
  let statistic : ℚ :=
    (frequency_table.map
      (fun p => ((p.2 : ℚ) - expected) ^ 2 / expected)).sum
  (statistic, decide (statistic > critical_value))

/-- C9: the chi-squared statistic is 0 with `is_biased = false` when
every observed count equals the expected frequency
`total_rolls / sides`, and for sides 6, rolls 6 and observed counts
`[6, 0, 0, 0, 0, 0]` the statistic is 30, which exceeds the critical
value 12.592, so `is_biased = true`. -/
theorem chi_squared_spec :
    (∀ (ft : List (Int × Nat)) (total sides : Nat),
      (∀ p ∈ ft, (p.2 : ℚ) = (total : ℚ) / (sides : ℚ)) →
      chi_squared ft total sides = (0, false)) ∧
    chi_squared [(1, 6), (2, 0), (3, 0), (4, 0), (5, 0), (6, 0)] 6 6 =
      (30, true) := by
  constructor
  · intro ft total sides hall
    have hstat : (ft.map
        (fun p => ((p.2 : ℚ) - (total : ℚ) / (sides : ℚ)) ^ 2 /
          ((total : ℚ) / (sides : ℚ)))).sum = 0 := by
      apply List.sum_eq_zero
      intro x hx
      obtain ⟨p, hp, hpe⟩ := List.mem_map.mp hx
      rw [← hpe, hall p hp]
      simp
    show ((ft.map
        (fun p => ((p.2 : ℚ) - (total : ℚ) / (sides : ℚ)) ^ 2 /
          ((total : ℚ) / (sides : ℚ)))).sum,
      decide ((ft.map
        (fun p => ((p.2 : ℚ) - (total : ℚ) / (sides : ℚ)) ^ 2 /
          ((total : ℚ) / (sides : ℚ)))).sum > critical_value)) =
      ((0 : ℚ), false)
    rw [hstat]
    norm_num [critical_value]
  · norm_num [chi_squared, critical_value]

theorem chi_squared_spec_witness :
    chi_squared [(1, 100), (2, 100), (3, 100), (4, 100), (5, 100),
      (6, 100)] 600 6 = (0, false) :=
  chi_squared_spec.1 _ 600 6 (by
    intro p hp
    fin_cases hp <;> norm_num)

end DiceSimulator
